import Mathlib

/-!
Shallow embedding of the reed-solomon repository's field and polynomial layer
(src/field.rs, src/field_element.rs, src/utils.rs, src/polynomial.rs), together
with theorems settling the specification claims.

Modelling conventions:
* `u64` values are modelled as `Nat`.  Where the Rust code can actually
  overflow a `u64` (the raw-coefficient accumulation in polynomial `mul`)
  the wraparound `% 2^64` is written explicitly; the single-product
  expressions `(a + b) % p` and `(a * b) % p` cannot overflow for canonical
  values when `p < 2^32`, which the relevant theorems assume.
* `i128` values are modelled as `Int`; `rem_euclid` is `Int.emod` (for a
  positive modulus both return the least non-negative residue).
* A Rust `&GaloisField` reference is modelled as a `FieldRef`: an allocation
  identity (`id`) together with the field data.  `std::ptr::eq` is `FieldRef`
  equality: two distinct allocations get distinct ids, the same allocation is
  the same pair.
* Rust panics at the polynomial layer (constructor check, binary-operation
  checks, the division-by-zero assert) are modelled with `Except String`.
  The arithmetic operations on `FieldElement` also panic on a cross-field
  operand pair; every call site below reaches them only with operands of one
  field, so they are embedded as total functions using the left operand's
  field, and the polynomial-level checks (which are the claims' subject) are
  modelled exactly.
-/

namespace RS

/-- `GaloisField` from src/field.rs: modulus, generator and the stored
zero/one scalars. -/
structure GaloisField where
  k_modulus : Nat
  generator_val : Nat
  zero : Nat
  one : Nat
deriving DecidableEq, Repr

/-- A `&'a GaloisField` reference: allocation identity plus the field data.
`std::ptr::eq` on two references is equality of `FieldRef`s. -/
structure FieldRef where
  id : Nat
  f : GaloisField
deriving DecidableEq, Repr

/-- `FieldElement` from src/field_element.rs: a `u64` value tagged with the
field it belongs to. -/
structure FieldElement where
  val : Nat
  field : FieldRef
deriving DecidableEq, Repr

/-- `GaloisField::new_element`: reduce an `i128` with `rem_euclid` into
`[0, modulus)`. -/
def FieldRef.new_element (F : FieldRef) (element_val : Int) : FieldElement :=
  ⟨(element_val.emod (F.f.k_modulus : Int)).toNat, F⟩

/-- `GaloisField::zero`. -/
def FieldRef.zero (F : FieldRef) : FieldElement := ⟨F.f.zero, F⟩

/-- `GaloisField::one`. -/
def FieldRef.one (F : FieldRef) : FieldElement := ⟨F.f.one, F⟩

/-- `GaloisField::generator`. -/
def FieldRef.generator (F : FieldRef) : FieldElement := ⟨F.f.generator_val, F⟩

/-- `PartialEq` for `FieldElement`: pointer-equal fields and equal values. -/
def feEq (a b : FieldElement) : Bool :=
  decide (a.field = b.field ∧ a.val = b.val)

/-- `ops::Add for FieldElement`: `(a.val + b.val) % modulus` (the cross-field
panic branch is unreachable at the call sites modelled here). -/
def feAdd (a b : FieldElement) : FieldElement :=
  ⟨(a.val + b.val) % a.field.f.k_modulus, a.field⟩

/-- `ops::Sub for FieldElement`: `new_element(a.val as i128 - b.val as i128)`. -/
def feSub (a b : FieldElement) : FieldElement :=
  a.field.new_element ((a.val : Int) - (b.val : Int))

/-- `ops::Neg for FieldElement`: `new_element(zero as i128 - val as i128)`. -/
def feNeg (a : FieldElement) : FieldElement :=
  a.field.new_element ((a.field.f.zero : Int) - (a.val : Int))

/-- `ops::Mul for FieldElement`: `(a.val * b.val) % modulus`. -/
def feMul (a b : FieldElement) : FieldElement :=
  ⟨(a.val * b.val) % a.field.f.k_modulus, a.field⟩

/-- The extended-Euclid loop of `FieldElement::inverse`.  In the source `r`
and `new_r` are `i128` variables initialised with the modulus and the element
value and they stay non-negative (each new remainder is a Euclidean
remainder), so they are carried as `Nat`; the Bezout coefficients `t`,
`new_t` genuinely go negative and are carried as `Int`.  The loop runs while
`new_r != field.zero`; if `new_r` reaches `0` without being equal to the
stored `zero` scalar the Rust division `r / new_r` panics, modelled as
`none`. -/
def egcdLoop (z : Nat) : Nat → Nat → Int → Int → Option (Nat × Int)
  | r, newr, t, newt =>
    if newr = z then some (r, t)
    else if h : newr = 0 then none
    else egcdLoop z newr (r % newr) newt (t - ((r / newr : Nat) : Int) * newt)
  termination_by r newr _ _ => newr
  decreasing_by exact Nat.mod_lt _ (Nat.pos_of_ne_zero h)

/-- Fuel-instrumented variant of `egcdLoop`, used to state that the loop
runs a bounded number of iterations: `none` means the fuel ran out, `some o`
means the loop reached its exit (normal return or division-by-zero panic)
within the given number of iterations. -/
def egcdLoopF (z : Nat) : Nat → Nat → Nat → Int → Int → Option (Option (Nat × Int))
  | fuel, r, newr, t, newt =>
    if newr = z then some (some (r, t))
    else if newr = 0 then some none
    else
      match fuel with
      | 0 => none
      | fuel + 1 => egcdLoopF z fuel newr (r % newr) newt (t - ((r / newr : Nat) : Int) * newt)

/-- `FieldElement::inverse`: extended Euclid over `(modulus, value)`, then
`assert!(r == one)` (modelled as an error) and `new_element(t)`. -/
def FieldElement.inverse (e : FieldElement) : Except String FieldElement :=
  match egcdLoop e.field.f.zero e.field.f.k_modulus e.val
      (e.field.f.zero : Int) (e.field.f.one : Int) with
  | none => .error "attempt to divide by zero"
  | some (r, t) =>
    if r = e.field.f.one then .ok (e.field.new_element t)
    else .error "assertion failed: r == one"

/-- The square-and-multiply loop of `FieldElement::pow`: while `n > 0`,
multiply the result by the current power when `n` is odd, halve `n`, square
the current power. -/
def powLoop : Nat → FieldElement → FieldElement → FieldElement
  | n, curPow, res =>
    if h : n = 0 then res
    else powLoop (n / 2) (feMul curPow curPow) (if n % 2 ≠ 0 then feMul res curPow else res)
  termination_by n _ _ => n
  decreasing_by exact Nat.div_lt_self (Nat.pos_of_ne_zero h) (by omega)

/-- Fuel-instrumented variant of `powLoop` (bounded-iteration statement). -/
def powLoopF : Nat → Nat → FieldElement → FieldElement → Option FieldElement
  | fuel, n, curPow, res =>
    if n = 0 then some res
    else
      match fuel with
      | 0 => none
      | fuel + 1 =>
        powLoopF fuel (n / 2) (feMul curPow curPow)
          (if n % 2 ≠ 0 then feMul res curPow else res)

/-- `FieldElement::pow`. -/
def FieldElement.pow (e : FieldElement) (n : Nat) : FieldElement :=
  powLoop n e (e.field.one)

/-- `utils::remove_trailing_elements`: reverse, skip elements equal to
`trailing`, collect, reverse back. -/
def remove_trailing_elements (coeffs : List FieldElement) (trailing : FieldElement) :
    List FieldElement :=
  ((coeffs.reverse.dropWhile (fun el => feEq el trailing)).reverse)

/-- `utils::zip_longest_with_op`: pairwise-apply `op`, padding the shorter
sequence with `fill_value`. -/
def zip_longest_with_op (lhs rhs : List FieldElement)
    (op : FieldElement → FieldElement → FieldElement) (fill_value : FieldElement) :
    List FieldElement :=
  match lhs, rhs with
  | [], rest => rest.map (fun r => op fill_value r)
  | l :: ls, [] => op l fill_value :: zip_longest_with_op ls [] op fill_value
  | l :: ls, r :: rs => op l r :: zip_longest_with_op ls rs op fill_value

/-- `Polynomial` from src/polynomial.rs: coefficients in ascending power
order, the owning field reference and the variable designation. -/
structure Polynomial where
  coeffs : List FieldElement
  field : FieldRef
  var : String
deriving DecidableEq, Repr

/-- `Polynomial::get_field_ptr`: the first coefficient's field pointer, or
null (`none`) for an empty sequence. -/
def get_field_ptr (coeffs : List FieldElement) : Option FieldRef :=
  coeffs.head?.map (fun element => element.field)

/-- `Polynomial::new`: panic unless every coefficient's field pointer equals
the FIRST coefficient's field pointer (the passed `field` argument is not
itself compared), then trim trailing `field.zero()` elements. -/
def Polynomial.new (coeffs : List FieldElement) (field : FieldRef) (var : String) :
    Except String Polynomial :=
  if coeffs.all (fun el => get_field_ptr coeffs = some el.field) then
    .ok ⟨remove_trailing_elements coeffs field.zero, field, var⟩
  else
    .error "Not all coefficients of the constructing polynomial are lay in the same field!"

/-- `Polynomial::from`: rebuild with another polynomial's field and variable. -/
def Polynomial.fromOther (coeffs : List FieldElement) (other : Polynomial) :
    Except String Polynomial :=
  Polynomial.new coeffs other.field other.var

/-- `Polynomial::empty`. -/
def Polynomial.emptyLike (other : Polynomial) : Except String Polynomial :=
  Polynomial.new [] other.field other.var

/-- `Polynomial::x`. -/
def Polynomial.x (field : FieldRef) : Polynomial :=
  ⟨[field.zero, field.one], field, "x"⟩

/-- `Polynomial::deg`: `coeffs.len() as i64 - 1`. -/
def Polynomial.deg (p : Polynomial) : Int :=
  (p.coeffs.length : Int) - 1

/-- `Polynomial::monomial`: `deg` zeros followed by `coef`, then `new`. -/
def Polynomial.monomial (deg : Nat) (coef : FieldElement) (field : FieldRef) :
    Except String Polynomial :=
  Polynomial.new (List.replicate deg field.zero ++ [coef]) field "x"

/-- `Polynomial::check_bin_op_args`: panic on a field-pointer mismatch, then
on a variable-name mismatch. -/
def check_bin_op_args (lhs rhs : Polynomial) : Except String Unit :=
  if lhs.field ≠ rhs.field then .error "Polynomials are biult over different fields!"
  else if lhs.var ≠ rhs.var then .error "Polynomials have different variable names!"
  else .ok ()

/-- `Polynomial::bin_op`: check the operands, then zip the coefficient
sequences with `op` and `lhs.field.zero()` as fill value.  Note: the result
is NOT normalized (no `remove_trailing_elements`). -/
def Polynomial.bin_op (lhs rhs : Polynomial)
    (op : FieldElement → FieldElement → FieldElement) : Except String Polynomial := do
  let _ ← check_bin_op_args lhs rhs
  .ok ⟨zip_longest_with_op lhs.coeffs rhs.coeffs op lhs.field.zero, lhs.field, lhs.var⟩

/-- `ops::Add for Polynomial`. -/
def Polynomial.add (lhs rhs : Polynomial) : Except String Polynomial :=
  Polynomial.bin_op lhs rhs feAdd

/-- `ops::Sub for Polynomial`. -/
def Polynomial.sub (lhs rhs : Polynomial) : Except String Polynomial :=
  Polynomial.bin_op lhs rhs feSub

/-- `ops::Neg for Polynomial`: `Polynomial::new(vec![], ..) - self`. -/
def Polynomial.neg (self : Polynomial) : Except String Polynomial := do
  let z ← Polynomial.new [] self.field self.var
  Polynomial.sub z self

/-- `cmp::PartialEq for Polynomial`: equality of the raw coefficient
sequences. -/
def Polynomial.eqPoly (a b : Polynomial) : Bool :=
  decide (a.coeffs = b.coeffs)

/-- `ops::Mul for Polynomial`: check the operands, convolve the RAW `u64`
values (`res_raw_coeffs[i + j] += lhs_val * rhs_val` — u64 arithmetic, hence
the explicit wraparound `% 2^64`), then map every raw value through
`new_element` and normalize via `Polynomial::new`. -/
def Polynomial.mul (self rhs : Polynomial) : Except String Polynomial := do
  let _ ← check_bin_op_args self rhs
  let lhsRaw := self.coeffs.map (fun el => el.val)
  let rhsRaw := rhs.coeffs.map (fun el => el.val)
  let resLen : Int := self.deg + rhs.deg + 1
  let init := List.replicate (max resLen 0).toNat 0
  let resRaw := lhsRaw.enum.foldl
    (fun acc iv =>
      rhsRaw.enum.foldl
        (fun acc2 jv =>
          acc2.set (iv.1 + jv.1) ((acc2.getD (iv.1 + jv.1) 0 + iv.2 * jv.2) % 2 ^ 64))
        acc)
    init
  Polynomial.new (resRaw.map (fun v => self.field.new_element (v : Int))) self.field self.var

/-- `Polynomial::compose`: fold from the highest-degree coefficient,
`res = res * rhs + Polynomial::new([coef], ..)`, starting from
`Polynomial::empty(self)`. -/
def Polynomial.compose (self rhs : Polynomial) : Except String Polynomial := do
  let init ← Polynomial.emptyLike self
  self.coeffs.reverse.foldlM
    (fun res coef => do
      let m ← Polynomial.mul res rhs
      let c ← Polynomial.new [coef] self.field self.var
      Polynomial.add m c)
    init

/-- `(a as i128 - b as i128).rem_euclid(p)` — the `SubAssign` used on the
remainder inside the long-division loop. -/
def i128SubMod (p a b : Nat) : Nat :=
  (((a : Int) - (b : Int)).emod (p : Int)).toNat

/-- The inner `for (i, coef) in rhs_coeffs.iter().enumerate()` updates of the
long-division loop: the new values written at the indices `i + offset`,
`rem[i + offset] -= tmp * coef`. -/
def divUpdated (p tmp : Nat) (rhsVals rem : List Nat) (degDif : Nat) : List Nat :=
  (List.range rhsVals.length).map
    (fun i => i128SubMod p (rem.getD (degDif + i) 0) (tmp * rhsVals.getD i 0 % p))

/-- The `last_non_zero` variable after the inner loop: initialised to
`deg_dif - 1`, set to `i + offset` at every visited index whose updated
value differs from `field.zero()`. -/
def divLastNonZero (z : Nat) (updated : List Nat) (degDif n : Nat) : Int :=
  (List.range n).foldl
    (fun acc i => if updated.getD i 0 ≠ z then ((degDif + i : Nat) : Int) else acc)
    ((degDif : Int) - 1)

/-- One iteration of the `qdiv_` long-division loop, on the value sequences.
The Rust loop body updates `rem` in place at the distinct ascending indices
`i + offset` (each read of `rem[i + offset]` precedes its only write), so it
is rendered as a prefix plus the mapped block `divUpdated`, `last_non_zero`
is the ascending fold the source's conditional assignment performs, and
`rem.truncate(last_non_zero + 1)` is `take`. -/
def divStep (F : GaloisField) (ginv : Nat) (rhsVals quot rem : List Nat) :
    List Nat × List Nat :=
  let p := F.k_modulus
  let degDif := rem.length - rhsVals.length
  let tmp := rem.getLastD 0 * ginv % p
  let quot' := quot.set degDif ((quot.getD degDif 0 + tmp) % p)
  let updated := divUpdated p tmp rhsVals rem degDif
  let lnz : Int := divLastNonZero F.zero updated degDif rhsVals.length
  (quot', (rem.take degDif ++ updated).take (lnz + 1).toNat)

/-- The `while deg_dif >= 0` loop of `qdiv_`, fuel-instrumented: `none`
means the given iteration bound was exhausted (the Rust loop would still be
running). -/
def qdivLoop (F : GaloisField) (ginv : Nat) (rhsVals : List Nat) :
    Nat → List Nat → List Nat → Option (List Nat × List Nat)
  | fuel, quot, rem =>
    if rem.length < rhsVals.length then some (quot, rem)
    else
      match fuel with
      | 0 => none
      | fuel + 1 =>
        let s := divStep F ginv rhsVals quot rem
        qdivLoop F ginv rhsVals fuel s.1 s.2

/-- `Polynomial::qdiv_`: trim both operands, assert the divisor non-empty,
short-circuit a zero dividend, compute the leading-coefficient inverse, run
the long-division loop (modelled with fuel `rem.length`, which the
termination theorem shows sufficient), and rebuild the quotient and
remainder polynomials.  The loop operates on `Vec<FieldElement>` whose
elements all carry the dividend's field, reading only their `val`s, so it is
embedded on the value sequences and the elements are re-tagged with
`self.field` afterwards. -/
def Polynomial.qdiv_ (self rhs : Polynomial) :
    Except String (Polynomial × Polynomial) := do
  let rhs_coeffs := remove_trailing_elements rhs.coeffs rhs.field.zero
  if h : rhs_coeffs = [] then
    .error "assertion failed: !rhs_coeffs.is_empty()"
  else
    let lhs_coeffs := remove_trailing_elements self.coeffs self.field.zero
    if lhs_coeffs = [] then do
      let e1 ← Polynomial.emptyLike self
      let e2 ← Polynomial.emptyLike self
      .ok (e1, e2)
    else do
      let gMscInv ← FieldElement.inverse (rhs_coeffs.getLastD self.field.zero)
      let remVals := lhs_coeffs.map (fun el => el.val)
      let rhsVals := rhs_coeffs.map (fun el => el.val)
      let degDif : Int := (remVals.length : Int) - (rhsVals.length : Int)
      let quotientLen := (if degDif ≥ -1 then degDif + 1 else 0).toNat
      let quotient := List.replicate quotientLen self.field.f.zero
      match qdivLoop self.field.f gMscInv.val rhsVals remVals.length quotient remVals with
      | none => .error "loop iteration bound exhausted"
      | some (q, r) => do
        let qElems := q.map (fun v => FieldElement.mk v self.field)
        let rElems := r.map (fun v => FieldElement.mk v self.field)
        let qP ← Polynomial.fromOther
          (remove_trailing_elements qElems self.field.zero) self
        let rP ← Polynomial.fromOther rElems self
        .ok (qP, rP)

/-- `Polynomial::qdiv`: check the operands, then `qdiv_`. -/
def Polynomial.qdiv (self rhs : Polynomial) :
    Except String (Polynomial × Polynomial) := do
  let _ ← check_bin_op_args self rhs
  Polynomial.qdiv_ self rhs

/-- `ops::Div for &Polynomial`: exact division, panicking on a non-empty
remainder. -/
def Polynomial.divExact (self rhs : Polynomial) : Except String Polynomial := do
  let _ ← check_bin_op_args self rhs
  let qr ← Polynomial.qdiv_ self rhs
  if qr.2.coeffs = [] then .ok qr.1
  else .error "Polynomials are not divisible."

end RS

/-! Concrete field instances used by the claim theorems: a small prime field
for readable counterexamples, two distinct allocations of it, and the
repository's own `galois_field!()` modulus `3*2^30 + 1`. -/

def fieldFive : RS.GaloisField := ⟨5, 2, 0, 1⟩

def refA5 : RS.FieldRef := ⟨0, fieldFive⟩

def refB5 : RS.FieldRef := ⟨1, fieldFive⟩

def fieldStark : RS.GaloisField := ⟨3221225473, 5, 0, 1⟩

def refStark : RS.FieldRef := ⟨0, fieldStark⟩

def polyBig : RS.Polynomial :=
  ⟨[⟨3221225472, refStark⟩, ⟨3221225472, refStark⟩], refStark, "x"⟩

/-- C1: over the repository's own modulus `p = 3*2^30+1`, multiplying the
polynomial `(p-1) + (p-1)·x` by itself accumulates the raw `u64` products
`res_raw_coeffs[1] += (p-1)*(p-1)` twice; the sum `2*(p-1)^2` exceeds `2^64`
and wraps, so the middle coefficient of the product is `2^61 mod p =
1431655766` instead of the schoolbook field convolution
`((p-1)*(p-1) mod p + (p-1)*(p-1) mod p) mod p = 2`. -/
theorem c1_mul_u64_overflow :
    (RS.Polynomial.mul polyBig polyBig).map
        (fun q => q.coeffs.map (fun e => e.val)) =
      Except.ok [1, 1431655766, 1] ∧
    (3221225472 * 3221225472 % 3221225473 +
        3221225472 * 3221225472 % 3221225473) % 3221225473 = 2 ∧
    (1431655766 : Nat) ≠ 2 := by
  refine ⟨rfl, by decide, by decide⟩

def c2Pa : RS.Polynomial := ⟨[⟨1, refA5⟩], refA5, "x"⟩

def c2Pb : RS.Polynomial := ⟨[⟨4, refA5⟩], refA5, "x"⟩

/-- C2: adding `[1]` and `[4]` over the modulus-5 field returns the
coefficient sequence `[0]` — `bin_op` performs no normalization, so the
result ends in a zero field element instead of being the empty (zero)
polynomial. -/
theorem c2_add_breaks_normal_form :
    RS.Polynomial.add c2Pa c2Pb = Except.ok ⟨[⟨0, refA5⟩], refA5, "x"⟩ ∧
    fieldFive.zero = 0 := by
  exact ⟨by rfl, rfl⟩

def c6P : RS.Polynomial := ⟨[⟨1, refA5⟩], refA5, "x"⟩

def c6Zero : RS.Polynomial := ⟨[], refA5, "x"⟩

/-- C6: for `p = [1]` over the modulus-5 field, `p + (-p)` has coefficient
sequence `[0]`, which `PartialEq` (raw sequence comparison) reports unequal
to the empty zero polynomial. -/
theorem c6_add_neg_ne_zero_poly :
    (RS.Polynomial.neg c6P).bind (fun n => RS.Polynomial.add c6P n) =
      Except.ok ⟨[⟨0, refA5⟩], refA5, "x"⟩ ∧
    RS.Polynomial.eqPoly ⟨[⟨0, refA5⟩], refA5, "x"⟩ c6Zero = false := by
  exact ⟨by rfl, by decide⟩

/-- C8 counterexample: a coefficient sequence lying entirely in one field
allocation (`refA5`) passed to `Polynomial::new` with a DIFFERENT field
allocation (`refB5`) is accepted — the constructor compares coefficients
only against the first coefficient's field, never against the passed
`field` argument, so the claimed failure does not occur. -/
theorem c8_counterexample_new_accepts_foreign_field :
    refA5 ≠ refB5 ∧
    RS.Polynomial.new [⟨1, refA5⟩] refB5 "x" =
      Except.ok ⟨[⟨1, refA5⟩], refB5, "x"⟩ := by
  exact ⟨by decide, rfl⟩

/-- C8 amended: `Polynomial::new` fails with the mixed-field error exactly
when some coefficient's field pointer differs from the FIRST coefficient's
field pointer.  Acceptance direction: any coefficient sequence homogeneous
in one field allocation is accepted no matter which `field` argument is
passed, and the result stores the passed field, the passed variable name
and the trimmed sequence.  Failure direction: a coefficient whose field
pointer differs from the first coefficient's makes construction fail with
the mixed-field error. -/
theorem c8_amended_first_coefficient_check (coeffs : List RS.FieldElement)
    (A fld : RS.FieldRef) (vname : String) :
    ((∀ el ∈ coeffs, el.field = A) →
      RS.Polynomial.new coeffs fld vname =
        Except.ok ⟨RS.remove_trailing_elements coeffs fld.zero, fld, vname⟩) ∧
    (∀ hd el, coeffs.head? = some hd → el ∈ coeffs → el.field ≠ hd.field →
      RS.Polynomial.new coeffs fld vname = Except.error
        "Not all coefficients of the constructing polynomial are lay in the same field!") := by
  constructor
  · intro hA
    unfold RS.Polynomial.new
    rw [if_pos]
    simp only [List.all_eq_true, decide_eq_true_eq]
    intro el hel
    cases coeffs with
    | nil => cases hel
    | cons c cs =>
      have h1 : RS.get_field_ptr (c :: cs) = some c.field := rfl
      rw [h1, hA el hel, hA c (List.mem_cons_self c cs)]
  · intro hd el hhd hel hne
    unfold RS.Polynomial.new
    rw [if_neg]
    intro hall
    rw [List.all_eq_true] at hall
    have h2 := hall el hel
    rw [decide_eq_true_eq] at h2
    cases coeffs with
    | nil => cases hel
    | cons c cs =>
      have h1 : RS.get_field_ptr (c :: cs) = some c.field := rfl
      rw [h1] at h2
      have hc : c = hd := by
        have : (c :: cs).head? = some c := rfl
        rw [this] at hhd
        exact (Option.some.injEq c hd ▸ hhd)
      apply hne
      rw [← hc]
      exact (Option.some.injEq c.field el.field ▸ h2).symm

/-- Witness for the C8 amended theorem: the acceptance direction at a
homogeneous sequence in a foreign field, and the failure direction at a
sequence mixing two field allocations. -/
theorem c8_amended_witness :
    ((∀ el ∈ [RS.FieldElement.mk 1 refA5], el.field = refA5) ∧
      RS.Polynomial.new [RS.FieldElement.mk 1 refA5] refB5 "x" =
        Except.ok ⟨RS.remove_trailing_elements [RS.FieldElement.mk 1 refA5] refB5.zero,
          refB5, "x"⟩) ∧
    (([RS.FieldElement.mk 1 refA5, RS.FieldElement.mk 1 refB5] :
        List RS.FieldElement).head? = some (RS.FieldElement.mk 1 refA5) ∧
      RS.FieldElement.mk 1 refB5 ∈
        [RS.FieldElement.mk 1 refA5, RS.FieldElement.mk 1 refB5] ∧
      (RS.FieldElement.mk 1 refB5).field ≠ (RS.FieldElement.mk 1 refA5).field ∧
      RS.Polynomial.new [RS.FieldElement.mk 1 refA5, RS.FieldElement.mk 1 refB5]
          refA5 "x" = Except.error
        "Not all coefficients of the constructing polynomial are lay in the same field!") :=
  ⟨⟨by decide,
    (c8_amended_first_coefficient_check [RS.FieldElement.mk 1 refA5] refA5 refB5 "x").1
      (by decide)⟩,
   ⟨by decide, by decide, by decide,
    (c8_amended_first_coefficient_check
        [RS.FieldElement.mk 1 refA5, RS.FieldElement.mk 1 refB5] refA5 refA5 "x").2
      (RS.FieldElement.mk 1 refA5) (RS.FieldElement.mk 1 refB5)
      (by decide) (by decide) (by decide)⟩⟩

/-- C10: when the outer polynomial has an empty coefficient sequence,
`compose` returns the zero polynomial (over the outer polynomial's field
and variable) for every inner polynomial — the loop body holding the
domain-mismatch and variable-name checks never runs. -/
theorem c10_compose_empty_outer (self rhs : RS.Polynomial)
    (h : self.coeffs = []) :
    RS.Polynomial.compose self rhs = Except.ok ⟨[], self.field, self.var⟩ := by
  obtain ⟨cs, fld, v⟩ := self
  simp only at h
  subst h
  rfl

/-- Witness for C10: the inner polynomial lies over a different field
allocation and uses a different variable name, yet composition with the
empty outer polynomial succeeds. -/
theorem c10_witness :
    RS.Polynomial.compose ⟨[], refA5, "x"⟩ ⟨[⟨1, refB5⟩], refB5, "y"⟩ =
      Except.ok ⟨[], refA5, "x"⟩ :=
  c10_compose_empty_outer _ _ rfl

namespace RS

/-- Invariant of the extended-Euclid loop (with stored zero scalar `0`):
it returns the gcd of the two running remainders together with a Bezout
coefficient for the tracked value `v`, modulo `m`. -/
theorem egcdLoop_spec (m v : Nat) : ∀ (newr r : Nat) (t newt : Int),
    (t * (v : Int)) ≡ (r : Int) [ZMOD (m : Int)] →
    (newt * (v : Int)) ≡ (newr : Int) [ZMOD (m : Int)] →
    ∃ tf, egcdLoop 0 r newr t newt = some (Nat.gcd newr r, tf) ∧
      (tf * (v : Int)) ≡ ((Nat.gcd newr r : Nat) : Int) [ZMOD (m : Int)] := by
  intro newr
  induction newr using Nat.strong_induction_on with
  | _ newr ih =>
    intro r t newt ht hnt
    by_cases h0 : newr = 0
    · subst h0
      refine ⟨t, ?_, ?_⟩
      · unfold egcdLoop
        simp [Nat.gcd_zero_left]
      · simpa [Nat.gcd_zero_left] using ht
    · have hmod : ((r % newr : Nat) : Int) =
          (r : Int) - ((r / newr : Nat) : Int) * (newr : Int) := by
        push_cast
        rw [Int.emod_def]
        ring
      have hnt' : ((t - ((r / newr : Nat) : Int) * newt) * (v : Int)) ≡
          ((r % newr : Nat) : Int) [ZMOD (m : Int)] := by
        rw [hmod, sub_mul, mul_assoc]
        exact Int.ModEq.sub ht (Int.ModEq.mul_left _ hnt)
      obtain ⟨tf, hloop, hbez⟩ :=
        ih (r % newr) (Nat.mod_lt _ (Nat.pos_of_ne_zero h0)) newr newt
          (t - ((r / newr : Nat) : Int) * newt) hnt hnt'
      refine ⟨tf, ?_, ?_⟩
      · unfold egcdLoop
        rw [if_neg h0, dif_neg h0, hloop, Nat.gcd_rec newr r]
      · rw [Nat.gcd_rec newr r]
        exact hbez

/-- Correctness of `FieldElement.inverse` for a canonical non-zero element
of a prime-modulus field with stored scalars `zero = 0`, `one = 1`: the
extended Euclid run succeeds and returns the canonical multiplicative
inverse. -/
theorem inverse_spec (e : FieldElement)
    (hp : Nat.Prime e.field.f.k_modulus)
    (hz : e.field.f.zero = 0) (ho : e.field.f.one = 1)
    (h0 : 0 < e.val) (hlt : e.val < e.field.f.k_modulus) :
    ∃ w, FieldElement.inverse e = .ok w ∧ w.field = e.field ∧
      w.val < e.field.f.k_modulus ∧
      (e.val * w.val) % e.field.f.k_modulus = 1 := by
  have hp1 : 1 < e.field.f.k_modulus := hp.one_lt
  set p := e.field.f.k_modulus with hpdef
  have ht0 : ((0 : Int) * (e.val : Int)) ≡ (p : Int) [ZMOD (p : Int)] := by
    simp [Int.ModEq, Int.emod_self]
  have hnt0 : ((1 : Int) * (e.val : Int)) ≡ ((e.val : Nat) : Int) [ZMOD (p : Int)] := by
    simp
  obtain ⟨tf, hloop, hbez⟩ := egcdLoop_spec p e.val e.val p 0 1 ht0 hnt0
  have hgcd : Nat.gcd e.val p = 1 := by
    have hnd : ¬ p ∣ e.val := by
      intro hdvd
      have := Nat.le_of_dvd h0 hdvd
      omega
    have hcop := (Nat.Prime.coprime_iff_not_dvd hp).mpr hnd
    rw [Nat.gcd_comm]
    exact hcop
  rw [hgcd] at hloop hbez
  have hbez1 : (tf * (e.val : Int)) ≡ 1 [ZMOD (p : Int)] := by
    simpa using hbez
  refine ⟨e.field.new_element tf, ?_, rfl, ?_, ?_⟩
  · unfold FieldElement.inverse
    rw [hz, ho]
    simp only [Nat.cast_zero, Nat.cast_one]
    rw [hloop]
    simp
  · show ((tf.emod (p : Int)).toNat) < p
    have hppos : (0 : Int) < (p : Int) := by exact_mod_cast Nat.lt_of_lt_of_le Nat.zero_lt_one hp1.le
    have h1 : tf.emod (p : Int) < (p : Int) := Int.emod_lt_of_pos tf hppos
    have h2 : 0 ≤ tf.emod (p : Int) := Int.emod_nonneg tf (by positivity)
    zify
    rw [Int.toNat_of_nonneg h2]
    exact h1
  · show (e.val * (tf.emod (p : Int)).toNat) % p = 1
    have h2 : 0 ≤ tf.emod (p : Int) := Int.emod_nonneg tf (by positivity)
    have hcastW : (((tf.emod (p : Int)).toNat : Nat) : Int) = tf.emod (p : Int) :=
      Int.toNat_of_nonneg h2
    have hWtf : (tf.emod (p : Int)) ≡ tf [ZMOD (p : Int)] :=
      Int.emod_emod_of_dvd tf (dvd_refl _)
    have hWmul : (((e.val : Int)) * (tf.emod (p : Int))) ≡ 1 [ZMOD (p : Int)] := by
      calc ((e.val : Int)) * (tf.emod (p : Int))
          ≡ (e.val : Int) * tf [ZMOD (p : Int)] := Int.ModEq.mul_left _ hWtf
        _ = tf * (e.val : Int) := by ring
        _ ≡ 1 [ZMOD (p : Int)] := hbez1
    have hint : ((e.val : Int) * (tf.emod (p : Int))) % (p : Int) = 1 := by
      have hlt1 : (1 : Int) % (p : Int) = 1 :=
        Int.emod_eq_of_lt (by omega) (by exact_mod_cast hp1)
      calc ((e.val : Int) * (tf.emod (p : Int))) % (p : Int)
          = (1 : Int) % (p : Int) := hWmul
        _ = 1 := hlt1
    have : ((e.val * (tf.emod (p : Int)).toNat % p : Nat) : Int) = 1 := by
      push_cast
      rw [hcastW]
      show ((e.val : Int) * (tf.emod (p : Int))) % (p : Int) = 1
      exact hint
    exact_mod_cast this

end RS

/-- C4: for every field element with non-zero canonical value over a prime
modulus (with the canonical stored scalars, and a modulus small enough that
the `u64` products cannot overflow), `inverse` succeeds via the extended
Euclidean algorithm, returns a canonical value in `[0, modulus)`, and
multiplying the element by it yields the field's one element. -/
theorem c4_inverse_mul_is_one (e : RS.FieldElement)
    (hp : Nat.Prime e.field.f.k_modulus)
    (h32 : e.field.f.k_modulus < 2 ^ 32)
    (hz : e.field.f.zero = 0) (ho : e.field.f.one = 1)
    (h0 : 0 < e.val) (hlt : e.val < e.field.f.k_modulus) :
    ∃ w, RS.FieldElement.inverse e = Except.ok w ∧
      w.val < e.field.f.k_modulus ∧
      RS.feMul e w = e.field.one := by
  obtain ⟨w, hok, hwf, hwlt, hwmul⟩ := RS.inverse_spec e hp hz ho h0 hlt
  refine ⟨w, hok, hwlt, ?_⟩
  unfold RS.feMul RS.FieldRef.one
  rw [hwmul, ho]

/-- Witness for C4 over the modulus-5 field at the element 2 (inverse 3). -/
theorem c4_witness :
    Nat.Prime (RS.FieldElement.mk 2 refA5).field.f.k_modulus ∧
    ∃ w, RS.FieldElement.inverse (RS.FieldElement.mk 2 refA5) = Except.ok w ∧
      w.val < (RS.FieldElement.mk 2 refA5).field.f.k_modulus ∧
      RS.feMul (RS.FieldElement.mk 2 refA5) w = (RS.FieldElement.mk 2 refA5).field.one :=
  ⟨by decide,
    c4_inverse_mul_is_one (RS.FieldElement.mk 2 refA5) (by decide) (by decide)
      (by decide) (by decide) (by decide) (by decide)⟩

/-- C5: `new_element` reduction is modulus-periodic and sign-agnostic, the
stored value is always the canonical Euclidean residue in `[0, modulus)`,
and over the repository's modulus `3*2^30+1` the raw input `-317544001`
reduces to `2903681472`. -/
theorem c5_new_element_canonical (F : RS.FieldRef) (hm : 0 < F.f.k_modulus) :
    (∀ n k : Int, (F.new_element (n + k * (F.f.k_modulus : Int))).val =
      (F.new_element n).val) ∧
    (∀ n : Int, (F.new_element n).val < F.f.k_modulus) ∧
    (F.f.k_modulus = 3 * 2 ^ 30 + 1 →
      (F.new_element (-317544001)).val = 2903681472) := by
  have hm' : (0 : Int) < (F.f.k_modulus : Int) := by exact_mod_cast hm
  have hconv : ∀ a b : Int, a.emod b = a % b := fun _ _ => rfl
  refine ⟨?_, ?_, ?_⟩
  · intro n k
    unfold RS.FieldRef.new_element
    simp only [hconv]
    rw [mul_comm k, Int.add_mul_emod_self_left]
  · intro n
    unfold RS.FieldRef.new_element
    show (n.emod (F.f.k_modulus : Int)).toNat < F.f.k_modulus
    simp only [hconv]
    have h1 := Int.emod_lt_of_pos n hm'
    have h2 : 0 ≤ n.emod (F.f.k_modulus : Int) :=
      Int.emod_nonneg n (by omega)
    simp only [hconv] at h1 h2
    zify
    rw [Int.toNat_of_nonneg h2]
    exact h1
  · intro hmod
    unfold RS.FieldRef.new_element
    rw [hmod]
    show ((-317544001 : Int).emod ((3 * 2 ^ 30 + 1 : Nat) : Int)).toNat = 2903681472
    decide

/-- Witness for C5 at the repository's own field constant. -/
theorem c5_witness :
    0 < refStark.f.k_modulus ∧
    (refStark.new_element (-317544001)).val = 2903681472 :=
  ⟨by decide, (c5_new_element_canonical refStark (by decide)).2.2 (by decide)⟩

/-! Semantic layer for the polynomial-division claims: a coefficient value
sequence is interpreted as a polynomial over `ZMod p`. -/

/-- Interpretation of a `u64` coefficient sequence as a polynomial over
`ZMod p` (index = power). -/
noncomputable def toPoly (p : Nat) (l : List Nat) : Polynomial (ZMod p) :=
  ∑ i ∈ Finset.range l.length,
    Polynomial.C ((l.getD i 0 : Nat) : ZMod p) * Polynomial.X ^ i

theorem toPoly_coeff (p : Nat) (l : List Nat) (k : Nat) :
    (toPoly p l).coeff k = ((l.getD k 0 : Nat) : ZMod p) := by
  unfold toPoly
  rw [Polynomial.finset_sum_coeff]
  simp only [Polynomial.C_mul_X_pow_eq_monomial, Polynomial.coeff_monomial]
  rw [Finset.sum_ite_eq' (Finset.range l.length) k
    (fun i => ((l.getD i 0 : Nat) : ZMod p))]
  by_cases hk : k < l.length
  · rw [if_pos (Finset.mem_range.mpr hk)]
  · rw [if_neg (fun hmem => hk (Finset.mem_range.mp hmem))]
    rw [List.getD_eq_getElem?_getD, List.getElem?_eq_none (le_of_not_lt hk)]
    simp

theorem toPoly_eq_of_getD (p : Nat) (l1 l2 : List Nat)
    (h : ∀ k, l1.getD k 0 = l2.getD k 0) : toPoly p l1 = toPoly p l2 := by
  apply Polynomial.ext
  intro k
  rw [toPoly_coeff, toPoly_coeff, h k]

theorem toPoly_append_zeros (p : Nat) (l1 l2 : List Nat)
    (h : ∀ x ∈ l2, x = 0) : toPoly p (l1 ++ l2) = toPoly p l1 := by
  apply toPoly_eq_of_getD
  intro k
  rw [List.getD_eq_getElem?_getD, List.getD_eq_getElem?_getD, List.getElem?_append]
  by_cases hk : k < l1.length
  · rw [if_pos hk]
  · rw [if_neg hk]
    cases hg : l2[k - l1.length]? with
    | none =>
      rw [List.getElem?_eq_none (le_of_not_lt hk)]
    | some x =>
      have hx := h x (List.getElem?_mem hg)
      rw [List.getElem?_eq_none (le_of_not_lt hk)]
      simp [hg, hx]

theorem toPoly_take_of_zeros (p : Nat) (l : List Nat) (m : Nat)
    (h : ∀ j, m ≤ j → l.getD j 0 = 0) : toPoly p (l.take m) = toPoly p l := by
  apply toPoly_eq_of_getD
  intro k
  rw [List.getD_eq_getElem?_getD, List.getD_eq_getElem?_getD, List.getElem?_take]
  by_cases hk : k < m
  · rw [if_pos hk]
  · rw [if_neg hk]
    have h0 : l.getD k 0 = 0 := h k (le_of_not_lt hk)
    rw [List.getD_eq_getElem?_getD] at h0
    rw [show (none : Option Nat).getD 0 = 0 from rfl]
    exact h0.symm

theorem castNatMod (p a : Nat) : ((a % p : Nat) : ZMod p) = (a : ZMod p) :=
  ZMod.natCast_mod a p

theorem castIntEmod (p : Nat) (x : Int) :
    (((x.emod (p : Int)) : Int) : ZMod p) = ((x : Int) : ZMod p) := by
  have hconv : x.emod (p : Int) = x % (p : Int) := rfl
  rw [hconv, Int.emod_def]
  push_cast
  ring_nf
  simp [ZMod.natCast_self]

theorem castIntToNat (p : Nat) (x : Int) (hx : 0 ≤ x) :
    ((x.toNat : Nat) : ZMod p) = ((x : Int) : ZMod p) :=
  calc ((x.toNat : Nat) : ZMod p)
      = (((x.toNat : Nat) : Int) : ZMod p) := (Int.cast_natCast _).symm
    _ = ((x : Int) : ZMod p) := by rw [Int.toNat_of_nonneg hx]

theorem castI128SubMod (p a b : Nat) (hp : 0 < p) :
    ((RS.i128SubMod p a b : Nat) : ZMod p) = (a : ZMod p) - (b : ZMod p) := by
  unfold RS.i128SubMod
  have hnn : 0 ≤ ((a : Int) - (b : Int)).emod (p : Int) :=
    Int.emod_nonneg _ (by positivity)
  rw [castIntToNat p _ hnn, castIntEmod]
  push_cast
  ring

/-- `i128SubMod` returns `0` exactly when the difference is divisible by the
modulus. -/
theorem i128SubMod_eq_zero (p a b : Nat) (hcong : ((a : Int) - (b : Int)) % (p : Int) = 0) :
    RS.i128SubMod p a b = 0 := by
  unfold RS.i128SubMod
  have hconv : ((a : Int) - (b : Int)).emod (p : Int) = ((a : Int) - (b : Int)) % (p : Int) := rfl
  rw [hconv, hcong]
  rfl

/-! Generic facts about the ascending `last_non_zero` fold. -/

theorem foldIf_mem (Q : Nat → Prop) [DecidablePred Q] (G : Nat → Int) (a0 : Int)
    (n : Nat) :
    (List.range n).foldl (fun acc i => if Q i then G i else acc) a0 = a0 ∨
    ∃ j, j < n ∧ Q j ∧
      (List.range n).foldl (fun acc i => if Q i then G i else acc) a0 = G j := by
  induction n with
  | zero => left; rfl
  | succ n ih =>
    rw [List.range_succ, List.foldl_append]
    simp only [List.foldl_cons, List.foldl_nil]
    by_cases hq : Q n
    · right
      exact ⟨n, Nat.lt_succ_self n, hq, by rw [if_pos hq]⟩
    · rw [if_neg hq]
      rcases ih with h | ⟨j, hj, hqj, hej⟩
      · left; exact h
      · right; exact ⟨j, Nat.lt_succ_of_lt hj, hqj, hej⟩

theorem foldIf_ge (Q : Nat → Prop) [DecidablePred Q] (G : Nat → Int) (a0 : Int)
    (hmono : ∀ a b : Nat, a ≤ b → G a ≤ G b) (ha0 : ∀ j : Nat, a0 ≤ G j) :
    ∀ n j, j < n → Q j →
      G j ≤ (List.range n).foldl (fun acc i => if Q i then G i else acc) a0 := by
  intro n
  induction n with
  | zero => intro j hj; exact absurd hj (Nat.not_lt_zero j)
  | succ n ih =>
    intro j hj hq
    rw [List.range_succ, List.foldl_append]
    simp only [List.foldl_cons, List.foldl_nil]
    by_cases hqn : Q n
    · rw [if_pos hqn]
      exact hmono j n (by omega)
    · rw [if_neg hqn]
      have hjn : j < n := by
        rcases Nat.lt_succ_iff_lt_or_eq.mp hj with h | h
        · exact h
        · subst h; exact absurd hq hqn
      exact ih j hjn hq



theorem divUpdated_length (p tmp : Nat) (rhsVals rem : List Nat) (d : Nat) :
    (RS.divUpdated p tmp rhsVals rem d).length = rhsVals.length := by
  unfold RS.divUpdated
  simp

theorem divUpdated_getD (p tmp : Nat) (rhsVals rem : List Nat) (d i : Nat)
    (hi : i < rhsVals.length) :
    (RS.divUpdated p tmp rhsVals rem d).getD i 0 =
      RS.i128SubMod p (rem.getD (d + i) 0) (tmp * rhsVals.getD i 0 % p) := by
  unfold RS.divUpdated
  rw [List.getD_eq_getElem?_getD, List.getElem?_map, List.getElem?_range hi]
  rfl

/-- After the inner loop, the highest updated position holds zero: the
leading remainder coefficient is cancelled exactly, because `tmp` is the
leading remainder value times the inverse of the divisor's leading value. -/
theorem divUpdated_last_zero (p ginv g : Nat) (rhsVals rem : List Nat) (d : Nat)
    (hlast : rhsVals.getLast? = some g)
    (hginv : g * ginv % p = 1)
    (hdn : d + rhsVals.length = rem.length) :
    (RS.divUpdated p (rem.getLastD 0 * ginv % p) rhsVals rem d).getD
      (rhsVals.length - 1) 0 = 0 := by
  have hn0 : 0 < rhsVals.length := by
    cases rhsVals with
    | nil => simp at hlast
    | cons a as => simp
  rw [divUpdated_getD _ _ _ _ _ _ (by omega)]
  have hrem : rem.getD (d + (rhsVals.length - 1)) 0 = rem.getLastD 0 := by
    have hidx : d + (rhsVals.length - 1) = rem.length - 1 := by omega
    rw [hidx, List.getLastD_eq_getLast?, List.getLast?_eq_getElem?,
      List.getD_eq_getElem?_getD]
  have hrhs : rhsVals.getD (rhsVals.length - 1) 0 = g := by
    rw [List.getD_eq_getElem?_getD, ← List.getLast?_eq_getElem?, hlast]
    rfl
  rw [hrem, hrhs]
  apply i128SubMod_eq_zero
  have hNat : rem.getLastD 0 * ginv % p * g % p ≡ rem.getLastD 0 [MOD p] := by
    calc rem.getLastD 0 * ginv % p * g % p
        ≡ rem.getLastD 0 * ginv % p * g [MOD p] := Nat.mod_modEq _ p
      _ ≡ rem.getLastD 0 * ginv * g [MOD p] :=
          Nat.ModEq.mul_right g (Nat.mod_modEq _ p)
      _ = rem.getLastD 0 * (g * ginv) := by ring
      _ ≡ rem.getLastD 0 * (g * ginv % p) [MOD p] :=
          Nat.ModEq.mul_left _ (Nat.mod_modEq _ p).symm
      _ = rem.getLastD 0 := by rw [hginv, mul_one]
  have hInt : ((rem.getLastD 0 * ginv % p * g % p : Nat) : Int) ≡
      ((rem.getLastD 0 : Nat) : Int) [ZMOD (p : Int)] :=
    Int.natCast_modEq_iff.mpr hNat
  exact Int.emod_eq_zero_of_dvd hInt.dvd

/-- Full specification of one long-division iteration: the trimmed
remainder strictly shrinks, the quotient length is preserved, and (when the
quotient write lands in bounds) the value `quotient * divisor + remainder`
is preserved as a polynomial over `ZMod p`. -/
theorem divStep_spec (F : RS.GaloisField) (ginv g : Nat) (rhsVals quot rem : List Nat)
    (hz : F.zero = 0) (hp1 : 1 < F.k_modulus)
    (hlast : rhsVals.getLast? = some g)
    (hginv : g * ginv % F.k_modulus = 1)
    (hge : rhsVals.length ≤ rem.length) :
    (RS.divStep F ginv rhsVals quot rem).2.length < rem.length ∧
    (RS.divStep F ginv rhsVals quot rem).1.length = quot.length ∧
    (rem.length - rhsVals.length < quot.length →
      toPoly F.k_modulus (RS.divStep F ginv rhsVals quot rem).1 * toPoly F.k_modulus rhsVals
        + toPoly F.k_modulus (RS.divStep F ginv rhsVals quot rem).2 =
      toPoly F.k_modulus quot * toPoly F.k_modulus rhsVals + toPoly F.k_modulus rem) := by
  have hp0 : 0 < F.k_modulus := by omega
  have hn0 : 0 < rhsVals.length := by
    cases rhsVals with
    | nil => simp at hlast
    | cons a as => simp
  have hstep : RS.divStep F ginv rhsVals quot rem =
      (quot.set (rem.length - rhsVals.length)
         ((quot.getD (rem.length - rhsVals.length) 0 +
            rem.getLastD 0 * ginv % F.k_modulus) % F.k_modulus),
       (rem.take (rem.length - rhsVals.length) ++
          RS.divUpdated F.k_modulus (rem.getLastD 0 * ginv % F.k_modulus) rhsVals rem
            (rem.length - rhsVals.length)).take
         ((RS.divLastNonZero F.zero
             (RS.divUpdated F.k_modulus (rem.getLastD 0 * ginv % F.k_modulus) rhsVals rem
               (rem.length - rhsVals.length))
             (rem.length - rhsVals.length) rhsVals.length + 1).toNat)) := rfl
  rw [hstep]
  set p := F.k_modulus with hpdef
  set n := rhsVals.length with hndef
  set d := rem.length - n with hddef
  set tmp := rem.getLastD 0 * ginv % p with htmpdef
  set U := RS.divUpdated p tmp rhsVals rem d with hUdef
  set L := RS.divLastNonZero F.zero U d n with hLdef
  have hdn : d + n = rem.length := by omega
  have hUlen : U.length = n := by rw [hUdef]; exact divUpdated_length p tmp rhsVals rem d
  have hUlast : U.getD (n - 1) 0 = 0 := by
    rw [hUdef, htmpdef]
    exact divUpdated_last_zero p ginv g rhsVals rem d hlast hginv hdn
  have hLfold : L = (List.range n).foldl
      (fun acc i => if U.getD i 0 ≠ F.zero then ((d + i : Nat) : Int) else acc)
      ((d : Int) - 1) := rfl
  have hL_cases := foldIf_mem (fun i => U.getD i 0 ≠ F.zero)
      (fun i => ((d + i : Nat) : Int)) ((d : Int) - 1) n
  rw [← hLfold] at hL_cases
  have hL_ge_init : (d : Int) - 1 ≤ L := by
    rcases hL_cases with h | ⟨j, hj, hQ, hEq⟩
    · rw [h]
    · rw [hEq]; omega
  have hL_le : L ≤ (d : Int) + (n : Int) - 2 := by
    rcases hL_cases with h | ⟨j, hj, hQ, hEq⟩
    · rw [h]; omega
    · have hjne : j ≠ n - 1 := by
        intro hcontra
        rw [hz] at hQ
        exact hQ (by rw [hcontra]; exact hUlast)
      rw [hEq]; push_cast; omega
  have hL_mem_ge : ∀ j, j < n → U.getD j 0 ≠ 0 → ((d + j : Nat) : Int) ≤ L := by
    intro j hj hQ
    rw [hLfold]
    refine foldIf_ge (fun i => U.getD i 0 ≠ F.zero)
      (fun i => ((d + i : Nat) : Int)) ((d : Int) - 1)
      (fun a b hab => by push_cast; omega)
      (fun j0 => by push_cast; omega) n j hj ?_
    rw [hz]
    exact hQ
  have hfull_len : (rem.take d ++ U).length = rem.length := by
    rw [List.length_append, List.length_take, hUlen]
    omega
  have hfull_getD : ∀ k, (rem.take d ++ U).getD k 0 =
      if k < d then rem.getD k 0 else if k < d + n then U.getD (k - d) 0 else 0 := by
    intro k
    have htl : (rem.take d).length = d := by rw [List.length_take]; omega
    by_cases hk1 : k < d
    · rw [if_pos hk1, List.getD_eq_getElem?_getD, List.getElem?_append, htl,
        if_pos hk1, List.getElem?_take, if_pos hk1, List.getD_eq_getElem?_getD]
    · rw [if_neg hk1]
      rw [List.getD_eq_getElem?_getD, List.getElem?_append, htl, if_neg hk1]
      by_cases hk2 : k < d + n
      · rw [if_pos hk2, List.getD_eq_getElem?_getD]
      · rw [if_neg hk2, List.getElem?_eq_none (by omega : U.length ≤ k - d)]
        rfl
  refine ⟨?_, ?_, ?_⟩
  · -- length decrease
    rw [List.length_take, hfull_len]
    have htoNat : (L + 1).toNat ≤ rem.length - 1 := by omega
    omega
  · exact List.length_set quot d _
  · -- the value identity
    intro hd
    have hEq1 : toPoly p (quot.set d ((quot.getD d 0 + tmp) % p)) =
        toPoly p quot + Polynomial.C ((tmp : Nat) : ZMod p) * Polynomial.X ^ d := by
      apply Polynomial.ext
      intro k
      rw [Polynomial.coeff_add, toPoly_coeff, toPoly_coeff,
        Polynomial.C_mul_X_pow_eq_monomial, Polynomial.coeff_monomial]
      rw [List.getD_eq_getElem?_getD, List.getElem?_set]
      by_cases hk : d = k
      · subst hk
        rw [if_pos rfl, if_pos hd, if_pos rfl]
        show (((quot.getD d 0 + tmp) % p : Nat) : ZMod p) = _
        rw [castNatMod]
        push_cast
        rw [List.getD_eq_getElem?_getD]
      · rw [if_neg hk, if_neg hk, List.getD_eq_getElem?_getD]
        ring
    have hEq2 : toPoly p (rem.take d ++ U) =
        toPoly p rem -
          Polynomial.C ((tmp : Nat) : ZMod p) * toPoly p rhsVals * Polynomial.X ^ d := by
      apply Polynomial.ext
      intro k
      rw [Polynomial.coeff_sub, toPoly_coeff, toPoly_coeff, hfull_getD k,
        Polynomial.coeff_mul_X_pow', Polynomial.coeff_C_mul, toPoly_coeff]
      by_cases hk1 : k < d
      · rw [if_pos hk1, if_neg (by omega : ¬ d ≤ k)]
        ring
      · rw [if_neg hk1, if_pos (by omega : d ≤ k)]
        by_cases hk2 : k < d + n
        · rw [if_pos hk2]
          have hkd : k - d < n := by omega
          rw [hUdef, divUpdated_getD p tmp rhsVals rem d (k - d) hkd]
          have hidx : d + (k - d) = k := by omega
          rw [hidx, castI128SubMod p _ _ hp0, castNatMod]
          push_cast
          ring
        · rw [if_neg hk2]
          have hrem0 : rem.getD k 0 = 0 := by
            rw [List.getD_eq_getElem?_getD, List.getElem?_eq_none (by omega : rem.length ≤ k)]
            rfl
          have hrhs0 : rhsVals.getD (k - d) 0 = 0 := by
            rw [List.getD_eq_getElem?_getD,
              List.getElem?_eq_none (by omega : rhsVals.length ≤ k - d)]
            rfl
          rw [hrem0, hrhs0]
          push_cast
          ring
    have hEq3 : toPoly p ((rem.take d ++ U).take (L + 1).toNat) =
        toPoly p (rem.take d ++ U) := by
      apply toPoly_take_of_zeros
      intro j hj
      rw [hfull_getD j]
      have hjd : ¬ j < d := by omega
      rw [if_neg hjd]
      by_cases hk2 : j < d + n
      · rw [if_pos hk2]
        by_contra hne
        have := hL_mem_ge (j - d) (by omega) hne
        have hidx : d + (j - d) = j := by omega
        rw [hidx] at this
        omega
      · rw [if_neg hk2]
    rw [hEq1, hEq3, hEq2]
    ring

/-- The long-division loop terminates within `rem.length` iterations and
preserves `quotient * divisor + remainder` (over `ZMod p`), leaving a
remainder strictly shorter than the divisor. -/
theorem qdivLoop_spec (F : RS.GaloisField) (ginv g : Nat) (rhsVals : List Nat)
    (hz : F.zero = 0) (hp1 : 1 < F.k_modulus)
    (hlast : rhsVals.getLast? = some g)
    (hginv : g * ginv % F.k_modulus = 1) :
    ∀ (fuel : Nat) (quot rem : List Nat), rem.length ≤ fuel →
      ∃ q r, RS.qdivLoop F ginv rhsVals fuel quot rem = some (q, r) ∧
        r.length < rhsVals.length ∧
        q.length = quot.length ∧
        (rem.length < rhsVals.length + quot.length →
          toPoly F.k_modulus q * toPoly F.k_modulus rhsVals + toPoly F.k_modulus r =
          toPoly F.k_modulus quot * toPoly F.k_modulus rhsVals + toPoly F.k_modulus rem) := by
  have hn0 : 0 < rhsVals.length := by
    cases rhsVals with
    | nil => simp at hlast
    | cons a as => simp
  intro fuel
  induction fuel with
  | zero =>
    intro quot rem hle
    have hlt : rem.length < rhsVals.length := by omega
    refine ⟨quot, rem, ?_, hlt, rfl, fun _ => rfl⟩
    unfold RS.qdivLoop
    rw [if_pos hlt]
  | succ fuel ih =>
    intro quot rem hle
    by_cases hlt : rem.length < rhsVals.length
    · refine ⟨quot, rem, ?_, hlt, rfl, fun _ => rfl⟩
      unfold RS.qdivLoop
      rw [if_pos hlt]
    · have hge : rhsVals.length ≤ rem.length := le_of_not_lt hlt
      obtain ⟨hdec, hqlen, hid⟩ :=
        divStep_spec F ginv g rhsVals quot rem hz hp1 hlast hginv hge
      obtain ⟨q, r, hq, hrlen, hqlen2, hid2⟩ :=
        ih (RS.divStep F ginv rhsVals quot rem).1
          (RS.divStep F ginv rhsVals quot rem).2 (by omega)
      refine ⟨q, r, ?_, hrlen, by rw [hqlen2, hqlen], ?_⟩
      · unfold RS.qdivLoop
        rw [if_neg hlt]
        exact hq
      · intro hbound
        have hd : rem.length - rhsVals.length < quot.length := by omega
        have hbound' : (RS.divStep F ginv rhsVals quot rem).2.length <
            rhsVals.length + (RS.divStep F ginv rhsVals quot rem).1.length := by
          rw [hqlen]
          omega
        rw [hid2 hbound', hid hd]

namespace RS

theorem toPoly_nil (p : Nat) : toPoly p ([] : List Nat) = 0 := by
  simp [toPoly]

/-- Decomposition of `remove_trailing_elements`: the input is the trimmed
prefix followed by a suffix of elements equal to `trailing`. -/
theorem remove_trailing_decomp (coeffs : List FieldElement) (z : FieldElement) :
    ∃ rest, coeffs = remove_trailing_elements coeffs z ++ rest ∧
      ∀ x ∈ rest, feEq x z = true := by
  refine ⟨(coeffs.reverse.takeWhile (fun el => feEq el z)).reverse, ?_, ?_⟩
  · unfold remove_trailing_elements
    conv_lhs => rw [← List.reverse_reverse coeffs]
    rw [← List.takeWhile_append_dropWhile (fun el => feEq el z) coeffs.reverse,
      List.reverse_append]
    rw [List.takeWhile_append_dropWhile]
  · intro x hx
    rw [List.mem_reverse] at hx
    exact List.mem_takeWhile_imp (p := fun el => feEq el z) hx

theorem dropWhile_head_not {α : Type} (q : α → Bool) (l : List α) :
    ∀ x, (l.dropWhile q).head? = some x → q x = false := by
  induction l with
  | nil => intro x hx; simp at hx
  | cons a as ih =>
    intro x hx
    by_cases hq : q a
    · rw [List.dropWhile_cons_of_pos hq] at hx
      exact ih x hx
    · rw [List.dropWhile_cons_of_neg hq] at hx
      simp at hx
      rw [← hx]
      exact Bool.not_eq_true _ ▸ (by simpa using hq)

/-- The last element the trimming keeps does not equal `trailing`. -/
theorem remove_trailing_getLast (coeffs : List FieldElement) (z x : FieldElement)
    (hx : (remove_trailing_elements coeffs z).getLast? = some x) :
    feEq x z = false := by
  unfold remove_trailing_elements at hx
  rw [List.getLast?_reverse] at hx
  exact dropWhile_head_not _ _ x hx

/-- Trimming never changes the interpreted polynomial of the value sequence,
as long as `trailing` has value zero. -/
theorem toPoly_map_val_remove_trailing (p : Nat) (coeffs : List FieldElement)
    (z : FieldElement) (hzv : z.val = 0) :
    toPoly p ((remove_trailing_elements coeffs z).map (fun e => e.val)) =
      toPoly p (coeffs.map (fun e => e.val)) := by
  obtain ⟨rest, hdec, hrest⟩ := remove_trailing_decomp coeffs z
  conv_rhs => rw [hdec]
  rw [List.map_append]
  rw [toPoly_append_zeros]
  intro v hv
  rw [List.mem_map] at hv
  obtain ⟨e, he, hev⟩ := hv
  have := hrest e he
  unfold feEq at this
  rw [decide_eq_true_eq] at this
  rw [← hev, this.2, hzv]

theorem remove_trailing_length (coeffs : List FieldElement) (z : FieldElement) :
    (remove_trailing_elements coeffs z).length ≤ coeffs.length := by
  obtain ⟨rest, hdec, _⟩ := remove_trailing_decomp coeffs z
  conv_rhs => rw [hdec]
  rw [List.length_append]
  omega

theorem remove_trailing_subset (coeffs : List FieldElement) (z : FieldElement) :
    ∀ x ∈ remove_trailing_elements coeffs z, x ∈ coeffs := by
  obtain ⟨rest, hdec, _⟩ := remove_trailing_decomp coeffs z
  intro x hx
  rw [hdec, List.mem_append]
  exact Or.inl hx

/-- `Polynomial::new` succeeds on any coefficient sequence homogeneous in
one field allocation, whatever `field` argument is passed. -/
theorem new_ok (coeffs : List FieldElement) (A fld : FieldRef) (vname : String)
    (hA : ∀ el ∈ coeffs, el.field = A) :
    Polynomial.new coeffs fld vname =
      Except.ok ⟨remove_trailing_elements coeffs fld.zero, fld, vname⟩ := by
  unfold Polynomial.new
  rw [if_pos]
  simp only [List.all_eq_true, decide_eq_true_eq]
  intro el hel
  cases coeffs with
  | nil => cases hel
  | cons c cs =>
    have h1 : get_field_ptr (c :: cs) = some c.field := rfl
    rw [h1, hA el hel, hA c (List.mem_cons_self c cs)]

end RS

namespace RS

theorem except_bind_ok {α β : Type} (a : α) (f : α → Except String β) :
    (Except.ok a : Except String α).bind f = f a := rfl

theorem new_nil (fld : FieldRef) (vname : String) :
    Polynomial.new [] fld vname = Except.ok ⟨[], fld, vname⟩ := rfl

theorem toPoly_replicate_zero (p m : Nat) :
    toPoly p (List.replicate m 0) = 0 := by
  have h := toPoly_append_zeros p [] (List.replicate m 0)
    (fun x hx => List.eq_of_mem_replicate hx)
  rw [List.nil_append] at h
  rw [h, toPoly_nil]

theorem map_val_mk (l : List Nat) (fld : FieldRef) :
    (l.map (fun v => FieldElement.mk v fld)).map (fun e => e.val) = l := by
  rw [List.map_map]
  exact List.map_id l

end RS

namespace RS

theorem bind_ok_law {α β : Type} (a : α) (f : α → Except String β) :
    ((Except.ok a : Except String α) >>= f) = f a := rfl

/-- `qdiv` reduces to `qdiv_` when the operands share field and variable. -/
theorem qdiv_eq_aux (self rhs : Polynomial)
    (hff : rhs.field = self.field) (hvv : rhs.var = self.var) :
    Polynomial.qdiv self rhs = Polynomial.qdiv_ self rhs := by
  unfold Polynomial.qdiv check_bin_op_args
  rw [if_neg (by simp [hff]), if_neg (by simp [hvv])]
  rfl

/-- Evaluation of `qdiv_` on a zero dividend. -/
theorem qdiv_zero_dividend (self rhs : Polynomial)
    (hnz : remove_trailing_elements rhs.coeffs rhs.field.zero ≠ [])
    (hLe : remove_trailing_elements self.coeffs self.field.zero = []) :
    Polynomial.qdiv_ self rhs =
      Except.ok (⟨[], self.field, self.var⟩, ⟨[], self.field, self.var⟩) := by
  simp only [Polynomial.qdiv_]
  rw [dif_neg hnz, if_pos hLe]
  rfl

/-- Evaluation of `qdiv_` in the main branch, given the results of the
inverse computation and of the division loop. -/
theorem qdiv_main_eval (self rhs : Polynomial)
    (hnz : remove_trailing_elements rhs.coeffs rhs.field.zero ≠ [])
    (hLne : remove_trailing_elements self.coeffs self.field.zero ≠ [])
    (w : FieldElement)
    (hw : FieldElement.inverse
      ((remove_trailing_elements rhs.coeffs rhs.field.zero).getLastD
        self.field.zero) = Except.ok w)
    (q r : List Nat)
    (hloop : qdivLoop self.field.f w.val
      ((remove_trailing_elements rhs.coeffs rhs.field.zero).map (fun el => el.val))
      ((remove_trailing_elements self.coeffs self.field.zero).map (fun el => el.val)).length
      (List.replicate
        (((if (((remove_trailing_elements self.coeffs self.field.zero).map (fun el => el.val)).length : Int) -
            (((remove_trailing_elements rhs.coeffs rhs.field.zero).map (fun el => el.val)).length : Int) ≥ -1 then
            (((remove_trailing_elements self.coeffs self.field.zero).map (fun el => el.val)).length : Int) -
            (((remove_trailing_elements rhs.coeffs rhs.field.zero).map (fun el => el.val)).length : Int) + 1 else 0)).toNat)
        self.field.f.zero)
      ((remove_trailing_elements self.coeffs self.field.zero).map (fun el => el.val)) = some (q, r)) :
    Polynomial.qdiv_ self rhs =
      (Polynomial.fromOther
          (remove_trailing_elements (q.map (fun v => FieldElement.mk v self.field))
            self.field.zero) self) >>= (fun qP =>
        (Polynomial.fromOther (r.map (fun v => FieldElement.mk v self.field)) self) >>=
          (fun rP => Except.ok (qP, rP))) := by
  simp only [Polynomial.qdiv_]
  rw [dif_neg hnz, if_neg hLne, hw, bind_ok_law, hloop]

end RS

/-- C3: for every dividend and non-zero divisor over one prime-modulus field
(canonical coefficients, matching variable names, modulus below `2^32` so the
`u64` products in the loop cannot overflow), `qdiv` succeeds and returns a
quotient and remainder with `dividend = quotient * divisor + remainder` as
polynomials over `ZMod p`, and `deg(remainder) < deg(divisor)` (degree of the
zero polynomial being `-1`). -/
theorem c3_qdiv_correct (self rhs : RS.Polynomial)
    (hp : Nat.Prime self.field.f.k_modulus)
    (h32 : self.field.f.k_modulus < 2 ^ 32)
    (hz : self.field.f.zero = 0) (ho : self.field.f.one = 1)
    (hff : rhs.field = self.field) (hvv : rhs.var = self.var)
    (hwfL : ∀ c ∈ self.coeffs, c.field = self.field ∧ c.val < self.field.f.k_modulus)
    (hwfR : ∀ c ∈ rhs.coeffs, c.field = self.field ∧ c.val < self.field.f.k_modulus)
    (hnz : RS.remove_trailing_elements rhs.coeffs rhs.field.zero ≠ []) :
    ∃ qP rP, RS.Polynomial.qdiv self rhs = Except.ok (qP, rP) ∧
      toPoly self.field.f.k_modulus (qP.coeffs.map (fun e => e.val)) *
          toPoly self.field.f.k_modulus (rhs.coeffs.map (fun e => e.val)) +
        toPoly self.field.f.k_modulus (rP.coeffs.map (fun e => e.val)) =
        toPoly self.field.f.k_modulus (self.coeffs.map (fun e => e.val)) ∧
      rP.deg < rhs.deg := by
  have hp1 : 1 < self.field.f.k_modulus := hp.one_lt
  set p := self.field.f.k_modulus with hpdef
  -- basic facts about the trimmed divisor
  have hzval : (rhs.field.zero : RS.FieldElement).val = 0 := by
    show rhs.field.f.zero = 0
    rw [hff]
    exact hz
  have hzvalL : (self.field.zero : RS.FieldElement).val = 0 := hz
  have hRc_sub := RS.remove_trailing_subset rhs.coeffs rhs.field.zero
  have hRc_len := RS.remove_trailing_length rhs.coeffs rhs.field.zero
  have hRc_nonnil : rhs.coeffs ≠ [] := by
    intro hcon
    apply hnz
    rw [hcon]
    rfl
  have hRlen_pos : 0 < rhs.coeffs.length := List.length_pos.mpr hRc_nonnil
  have hRPoly : toPoly p (((RS.remove_trailing_elements rhs.coeffs rhs.field.zero)).map
      (fun e => e.val)) = toPoly p (rhs.coeffs.map (fun e => e.val)) :=
    RS.toPoly_map_val_remove_trailing p rhs.coeffs rhs.field.zero hzval
  have hLPoly : toPoly p (((RS.remove_trailing_elements self.coeffs self.field.zero)).map
      (fun e => e.val)) = toPoly p (self.coeffs.map (fun e => e.val)) :=
    RS.toPoly_map_val_remove_trailing p self.coeffs self.field.zero hzvalL
  rw [RS.qdiv_eq_aux self rhs hff hvv]
  by_cases hLe : RS.remove_trailing_elements self.coeffs self.field.zero = []
  · -- zero dividend
    refine ⟨⟨[], self.field, self.var⟩, ⟨[], self.field, self.var⟩,
      RS.qdiv_zero_dividend self rhs hnz hLe, ?_, ?_⟩
    · show toPoly p [] * _ + toPoly p [] = _
      rw [RS.toPoly_nil]
      rw [← hLPoly, hLe]
      show 0 * _ + toPoly p [] = toPoly p []
      rw [RS.toPoly_nil, zero_mul, zero_add]
    · show (0 : Int) - 1 < (rhs.coeffs.length : Int) - 1
      omega
  · -- main branch
    obtain ⟨x, hx⟩ : ∃ x, (RS.remove_trailing_elements rhs.coeffs rhs.field.zero).getLast? =
        some x := by
      cases hg : (RS.remove_trailing_elements rhs.coeffs rhs.field.zero).getLast? with
      | none => exact absurd (List.getLast?_eq_none_iff.mp hg) hnz
      | some y => exact ⟨y, rfl⟩
    have hgetLastD : (RS.remove_trailing_elements rhs.coeffs rhs.field.zero).getLastD
        self.field.zero = x := by
      rw [List.getLastD_eq_getLast?, hx]
      rfl
    have hxmem : x ∈ rhs.coeffs := by
      apply hRc_sub
      rw [List.getLast?_eq_getElem?] at hx
      exact List.getElem?_mem hx
    obtain ⟨hxf, hxlt⟩ := hwfR x hxmem
    have hxval0 : x.val ≠ 0 := by
      have hfe := RS.remove_trailing_getLast rhs.coeffs rhs.field.zero x hx
      unfold RS.feEq at hfe
      rw [decide_eq_false_iff_not] at hfe
      intro hcon
      apply hfe
      constructor
      · show x.field = rhs.field
        rw [hxf, hff]
      · show x.val = rhs.field.f.zero
        rw [hcon, hff, hz]
    -- the inverse of the divisor's leading coefficient
    obtain ⟨w, hw_ok, hwfield, hwlt, hwmul⟩ := RS.inverse_spec x
      (by rw [hxf]; exact hp) (by rw [hxf]; exact hz) (by rw [hxf]; exact ho)
      (Nat.pos_of_ne_zero hxval0) (by rw [hxf]; exact hxlt)
    rw [hxf] at hwmul
    -- the division loop
    have hlastV : ((RS.remove_trailing_elements rhs.coeffs rhs.field.zero).map
        (fun el => el.val)).getLast? = some x.val := by
      rw [List.getLast?_map, hx]
      rfl
    obtain ⟨q, r, hloop, hrlen, hqlen, hident⟩ :=
      qdivLoop_spec self.field.f w.val x.val
        ((RS.remove_trailing_elements rhs.coeffs rhs.field.zero).map (fun el => el.val))
        hz hp1 hlastV hwmul
        ((RS.remove_trailing_elements self.coeffs self.field.zero).map (fun el => el.val)).length
        (List.replicate
          (((if (((RS.remove_trailing_elements self.coeffs self.field.zero).map (fun el => el.val)).length : Int) -
              (((RS.remove_trailing_elements rhs.coeffs rhs.field.zero).map (fun el => el.val)).length : Int) ≥ -1 then
              (((RS.remove_trailing_elements self.coeffs self.field.zero).map (fun el => el.val)).length : Int) -
              (((RS.remove_trailing_elements rhs.coeffs rhs.field.zero).map (fun el => el.val)).length : Int) + 1 else 0)).toNat)
          self.field.f.zero)
        ((RS.remove_trailing_elements self.coeffs self.field.zero).map (fun el => el.val))
        (le_refl _)
    have hEval := RS.qdiv_main_eval self rhs hnz hLe w (by rw [hgetLastD]; exact hw_ok)
      q r hloop
    -- the final constructors
    have hqElems : ∀ el ∈ (q.map (fun v => RS.FieldElement.mk v self.field)),
        el.field = self.field := by
      intro el hel
      rw [List.mem_map] at hel
      obtain ⟨v, _, hv⟩ := hel
      rw [← hv]
    have hqElems2 : ∀ el ∈ RS.remove_trailing_elements
        (q.map (fun v => RS.FieldElement.mk v self.field)) self.field.zero,
        el.field = self.field := fun el hel =>
      hqElems el (RS.remove_trailing_subset _ _ el hel)
    have hrElems : ∀ el ∈ (r.map (fun v => RS.FieldElement.mk v self.field)),
        el.field = self.field := by
      intro el hel
      rw [List.mem_map] at hel
      obtain ⟨v, _, hv⟩ := hel
      rw [← hv]
    have hQnew := RS.new_ok
      (RS.remove_trailing_elements (q.map (fun v => RS.FieldElement.mk v self.field))
        self.field.zero) self.field self.field self.var hqElems2
    have hRnew := RS.new_ok (r.map (fun v => RS.FieldElement.mk v self.field))
      self.field self.field self.var hrElems
    rw [hEval]
    unfold RS.Polynomial.fromOther
    rw [hQnew, RS.bind_ok_law, hRnew, RS.bind_ok_law]
    refine ⟨_, _, rfl, ?_, ?_⟩
    · -- the algebraic identity
      have hq2 : toPoly p ((RS.remove_trailing_elements
          (RS.remove_trailing_elements (q.map (fun v => RS.FieldElement.mk v self.field))
            self.field.zero) self.field.zero).map (fun e => e.val)) = toPoly p q := by
        rw [RS.toPoly_map_val_remove_trailing p _ _ hzvalL,
          RS.toPoly_map_val_remove_trailing p _ _ hzvalL, RS.map_val_mk]
      have hr2 : toPoly p ((RS.remove_trailing_elements
          (r.map (fun v => RS.FieldElement.mk v self.field)) self.field.zero).map
            (fun e => e.val)) = toPoly p r := by
        rw [RS.toPoly_map_val_remove_trailing p _ _ hzvalL, RS.map_val_mk]
      show toPoly p _ * toPoly p (rhs.coeffs.map (fun e => e.val)) + toPoly p _ =
        toPoly p (self.coeffs.map (fun e => e.val))
      rw [hq2, hr2, ← hRPoly, ← hLPoly]
      -- use the loop identity; quotient seed interprets to 0
      have hbound : ((RS.remove_trailing_elements self.coeffs self.field.zero).map
          (fun el => el.val)).length <
          ((RS.remove_trailing_elements rhs.coeffs rhs.field.zero).map
            (fun el => el.val)).length +
          (List.replicate
            (((if (((RS.remove_trailing_elements self.coeffs self.field.zero).map (fun el => el.val)).length : Int) -
                (((RS.remove_trailing_elements rhs.coeffs rhs.field.zero).map (fun el => el.val)).length : Int) ≥ -1 then
                (((RS.remove_trailing_elements self.coeffs self.field.zero).map (fun el => el.val)).length : Int) -
                (((RS.remove_trailing_elements rhs.coeffs rhs.field.zero).map (fun el => el.val)).length : Int) + 1 else 0)).toNat)
            self.field.f.zero).length := by
        rw [List.length_replicate]
        by_cases hcase : (((RS.remove_trailing_elements self.coeffs self.field.zero).map (fun el => el.val)).length : Int) -
            (((RS.remove_trailing_elements rhs.coeffs rhs.field.zero).map (fun el => el.val)).length : Int) ≥ -1
        · rw [if_pos hcase]
          omega
        · rw [if_neg hcase]
          omega
      have hid := hident hbound
      rw [hid]
      have hseed : toPoly p (List.replicate
          (((if (((RS.remove_trailing_elements self.coeffs self.field.zero).map (fun el => el.val)).length : Int) -
              (((RS.remove_trailing_elements rhs.coeffs rhs.field.zero).map (fun el => el.val)).length : Int) ≥ -1 then
              (((RS.remove_trailing_elements self.coeffs self.field.zero).map (fun el => el.val)).length : Int) -
              (((RS.remove_trailing_elements rhs.coeffs rhs.field.zero).map (fun el => el.val)).length : Int) + 1 else 0)).toNat)
          self.field.f.zero) = 0 := by
        rw [hz]
        exact RS.toPoly_replicate_zero p _
      rw [hseed, zero_mul, zero_add]
    · -- the degree bound
      show ((RS.remove_trailing_elements
          (r.map (fun v => RS.FieldElement.mk v self.field)) self.field.zero).length : Int) - 1 <
        (rhs.coeffs.length : Int) - 1
      have h1 := RS.remove_trailing_length
        (r.map (fun v => RS.FieldElement.mk v self.field)) self.field.zero
      rw [List.length_map] at h1
      rw [List.length_map] at hrlen
      have := hRc_len
      omega

def c3self : RS.Polynomial := ⟨[⟨3, refA5⟩, ⟨2, refA5⟩, ⟨1, refA5⟩], refA5, "x"⟩

def c3rhs : RS.Polynomial := ⟨[⟨1, refA5⟩, ⟨1, refA5⟩], refA5, "x"⟩

/-- Witness for C3 at a concrete division over the modulus-5 field. -/
theorem c3_witness :
    Nat.Prime c3self.field.f.k_modulus ∧
    RS.remove_trailing_elements c3rhs.coeffs c3rhs.field.zero ≠ [] ∧
    ∃ qP rP, RS.Polynomial.qdiv c3self c3rhs = Except.ok (qP, rP) ∧
      toPoly c3self.field.f.k_modulus (qP.coeffs.map (fun e => e.val)) *
          toPoly c3self.field.f.k_modulus (c3rhs.coeffs.map (fun e => e.val)) +
        toPoly c3self.field.f.k_modulus (rP.coeffs.map (fun e => e.val)) =
        toPoly c3self.field.f.k_modulus (c3self.coeffs.map (fun e => e.val)) ∧
      rP.deg < c3rhs.deg :=
  ⟨by decide, by decide,
    c3_qdiv_correct c3self c3rhs (by decide) (by decide) (by decide) (by decide)
      (by decide) (by decide) (by decide) (by decide) (by decide)⟩

namespace RS

/-- The fuelled extended-Euclid loop reaches its exit within `newr + 1`
iterations. -/
theorem egcdLoopF_spec : ∀ (newr fuel : Nat), newr ≤ fuel →
    ∀ (z r : Nat) (t newt : Int),
      egcdLoopF z fuel r newr t newt = some (egcdLoop z r newr t newt) := by
  intro newr
  induction newr using Nat.strong_induction_on with
  | _ newr ih =>
    intro fuel hle z r t newt
    by_cases hz0 : newr = z
    · unfold egcdLoopF egcdLoop
      rw [if_pos hz0, if_pos hz0]
    · by_cases h0 : newr = 0
      · unfold egcdLoopF egcdLoop
        rw [if_neg hz0, if_neg hz0, if_pos h0, dif_pos h0]
      · obtain ⟨f, rfl⟩ : ∃ f, fuel = f + 1 := ⟨fuel - 1, by omega⟩
        unfold egcdLoopF egcdLoop
        rw [if_neg hz0, if_neg hz0, if_neg h0, dif_neg h0]
        have hm : r % newr < newr := Nat.mod_lt _ (Nat.pos_of_ne_zero h0)
        exact ih (r % newr) hm f (by omega) z newr _ _

/-- The fuelled square-and-multiply loop reaches its exit within `n + 1`
iterations. -/
theorem powLoopF_spec : ∀ (n fuel : Nat), n ≤ fuel →
    ∀ (curPow res : FieldElement),
      powLoopF fuel n curPow res = some (powLoop n curPow res) := by
  intro n
  induction n using Nat.strong_induction_on with
  | _ n ih =>
    intro fuel hle curPow res
    by_cases h0 : n = 0
    · unfold powLoopF powLoop
      rw [if_pos h0, dif_pos h0]
    · obtain ⟨f, rfl⟩ : ∃ f, fuel = f + 1 := ⟨fuel - 1, by omega⟩
      unfold powLoopF powLoop
      rw [if_neg h0, dif_neg h0]
      exact ih (n / 2) (Nat.div_lt_self (Nat.pos_of_ne_zero h0) (by omega)) f (by omega) _ _

end RS

/-- C9: all three loops are bounded.  Over a field with stored zero `0` and
a correct leading-coefficient inverse, every long-division iteration
strictly decreases the trimmed remainder length and the division loop
reaches its exit within `rem.length` iterations; the extended-Euclid loop
always exits within `new_r + 1` iterations; the `pow` loop always exits
within `n + 1` iterations (so the well-founded embeddings `egcdLoop` and
`powLoop` compute the loops' results). -/
theorem c9_loops_terminate (F : RS.GaloisField) (rhsVals : List Nat) (ginv g : Nat)
    (hz : F.zero = 0) (hp1 : 1 < F.k_modulus)
    (hlast : rhsVals.getLast? = some g)
    (hginv : g * ginv % F.k_modulus = 1) :
    (∀ quot rem : List Nat, rhsVals.length ≤ rem.length →
      (RS.divStep F ginv rhsVals quot rem).2.length < rem.length) ∧
    (∀ quot rem : List Nat, RS.qdivLoop F ginv rhsVals rem.length quot rem ≠ none) ∧
    (∀ (z r newr : Nat) (t newt : Int),
      RS.egcdLoopF z (newr + 1) r newr t newt = some (RS.egcdLoop z r newr t newt)) ∧
    (∀ (n : Nat) (curPow res : RS.FieldElement),
      RS.powLoopF (n + 1) n curPow res = some (RS.powLoop n curPow res)) := by
  refine ⟨?_, ?_, ?_, ?_⟩
  · intro quot rem hge
    exact (divStep_spec F ginv g rhsVals quot rem hz hp1 hlast hginv hge).1
  · intro quot rem
    obtain ⟨q, r, hq, -, -, -⟩ :=
      qdivLoop_spec F ginv g rhsVals hz hp1 hlast hginv rem.length quot rem (le_refl _)
    rw [hq]
    intro hcon
    cases hcon
  · intro z r newr t newt
    exact RS.egcdLoopF_spec newr (newr + 1) (by omega) z r t newt
  · intro n curPow res
    exact RS.powLoopF_spec n (n + 1) (by omega) curPow res

/-- Witness for C9 over the modulus-5 field with divisor value sequence
`[1, 1]` and leading-coefficient inverse `1`. -/
theorem c9_witness :
    ([1, 1] : List Nat).getLast? = some 1 ∧ 1 * 1 % fieldFive.k_modulus = 1 ∧
    ((∀ quot rem : List Nat, ([1, 1] : List Nat).length ≤ rem.length →
        (RS.divStep fieldFive 1 [1, 1] quot rem).2.length < rem.length) ∧
      (∀ quot rem : List Nat,
        RS.qdivLoop fieldFive 1 [1, 1] rem.length quot rem ≠ none) ∧
      (∀ (z r newr : Nat) (t newt : Int),
        RS.egcdLoopF z (newr + 1) r newr t newt = some (RS.egcdLoop z r newr t newt)) ∧
      (∀ (n : Nat) (curPow res : RS.FieldElement),
        RS.powLoopF (n + 1) n curPow res = some (RS.powLoop n curPow res))) :=
  ⟨by decide, by decide,
    c9_loops_terminate fieldFive [1, 1] 1 1 (by decide) (by decide) (by decide) (by decide)⟩

/-! C7: Lagrange interpolation.  The source declares
`Polynomial::calculate_lagrange_polynomials` and
`Polynomial::interpolate_poly_lagrange` but both bodies are
`unimplemented!()`, so the construction below is modelled from the spec's
words over the coefficient representation of polynomials with values in the
field `ZMod p`. -/

/-- Modelled from the spec: polynomial addition of coefficient sequences
(pairwise field addition, the shorter padded with zero). -/
def listAddZ (p : Nat) : List (ZMod p) → List (ZMod p) → List (ZMod p)
  | [], ys => ys
  | xs, [] => xs
  | x :: xs, y :: ys => (x + y) :: listAddZ p xs ys

/-- Modelled from the spec: scaling a coefficient sequence by a field
element. -/
def listScaleZ (p : Nat) (c : ZMod p) (l : List (ZMod p)) : List (ZMod p) :=
  l.map (fun a => c * a)

/-- Modelled from the spec: polynomial multiplication of coefficient
sequences (field convolution). -/
def listMulZ (p : Nat) : List (ZMod p) → List (ZMod p) → List (ZMod p)
  | [], _ => []
  | a :: as, b => listAddZ p (listScaleZ p a b) (0 :: listMulZ p as b)

/-- Horner evaluation of a coefficient sequence at a point. -/
def listEvalZ (p : Nat) (l : List (ZMod p)) (x : ZMod p) : ZMod p :=
  l.foldr (fun c acc => c + x * acc) 0

/-- Modelled from the spec: `calculate_lagrange_polynomials` — the Lagrange
basis polynomial for node `i`, the product over `j ≠ i` of
`(x - xs[j]) * inverse(xs[i] - xs[j])`. -/
def lagrangeBasis (p : Nat) (xs : List (ZMod p)) (i : Nat) : List (ZMod p) :=
  ((List.range xs.length).filter (fun j => j != i)).foldr
    (fun j acc => listMulZ p
      (listScaleZ p (xs.getD i 0 - xs.getD j 0)⁻¹ [-(xs.getD j 0), 1]) acc)
    [1]

/-- Modelled from the spec: `interpolate_poly_lagrange` — the sum over `i`
of `ys[i] * basis_i`. -/
def specInterpolate (p : Nat) (xs ys : List (ZMod p)) : List (ZMod p) :=
  (List.range xs.length).foldr
    (fun i acc => listAddZ p (listScaleZ p (ys.getD i 0) (lagrangeBasis p xs i)) acc)
    []

theorem listEvalZ_nil (p : Nat) (x : ZMod p) : listEvalZ p [] x = 0 := rfl

theorem listEvalZ_cons (p : Nat) (c : ZMod p) (l : List (ZMod p)) (x : ZMod p) :
    listEvalZ p (c :: l) x = c + x * listEvalZ p l x := rfl

theorem listEvalZ_addZ (p : Nat) (a : List (ZMod p)) :
    ∀ (b : List (ZMod p)) (x : ZMod p),
      listEvalZ p (listAddZ p a b) x = listEvalZ p a x + listEvalZ p b x := by
  induction a with
  | nil =>
    intro b x
    simp only [listAddZ, listEvalZ_nil]
    ring
  | cons c cs ih =>
    intro b x
    cases b with
    | nil =>
      simp only [listAddZ, listEvalZ_nil]
      ring
    | cons d ds =>
      simp only [listAddZ, listEvalZ_cons]
      rw [ih ds x]
      ring

theorem listEvalZ_scaleZ (p : Nat) (c : ZMod p) (l : List (ZMod p)) (x : ZMod p) :
    listEvalZ p (listScaleZ p c l) x = c * listEvalZ p l x := by
  induction l with
  | nil =>
    simp only [listScaleZ, List.map_nil, listEvalZ_nil]
    ring
  | cons a as ih =>
    simp only [listScaleZ, List.map_cons, listEvalZ_cons] at ih ⊢
    rw [ih]
    ring

theorem listEvalZ_mulZ (p : Nat) (a : List (ZMod p)) :
    ∀ (b : List (ZMod p)) (x : ZMod p),
      listEvalZ p (listMulZ p a b) x = listEvalZ p a x * listEvalZ p b x := by
  induction a with
  | nil =>
    intro b x
    simp only [listMulZ, listEvalZ_nil]
    ring
  | cons c cs ih =>
    intro b x
    simp only [listMulZ]
    rw [listEvalZ_addZ, listEvalZ_scaleZ, listEvalZ_cons, listEvalZ_cons, ih b x]
    ring

theorem listEvalZ_basisFold (p : Nat) (xs : List (ZMod p)) (i : Nat) (x : ZMod p)
    (l : List Nat) :
    listEvalZ p
      (l.foldr (fun j acc => listMulZ p
        (listScaleZ p (xs.getD i 0 - xs.getD j 0)⁻¹ [-(xs.getD j 0), 1]) acc) [1]) x =
    (l.map (fun j => (xs.getD i 0 - xs.getD j 0)⁻¹ * (x - xs.getD j 0))).prod := by
  induction l with
  | nil =>
    simp only [List.foldr_nil, List.map_nil, List.prod_nil]
    show (1 : ZMod p) + x * 0 = 1
    ring
  | cons j js ih =>
    simp only [List.foldr_cons, List.map_cons, List.prod_cons]
    rw [listEvalZ_mulZ, ih, listEvalZ_scaleZ]
    show (xs.getD i 0 - xs.getD j 0)⁻¹ *
        (-xs.getD j 0 + x * ((1 : ZMod p) + x * 0)) * _ = _
    ring

theorem listEvalZ_interpFold (p : Nat) (t : Nat → List (ZMod p)) (x : ZMod p)
    (l : List Nat) :
    listEvalZ p (l.foldr (fun i acc => listAddZ p (t i) acc) []) x =
      (l.map (fun i => listEvalZ p (t i) x)).sum := by
  induction l with
  | nil => rfl
  | cons j js ih =>
    simp only [List.foldr_cons, List.map_cons, List.sum_cons]
    rw [listEvalZ_addZ, ih]

theorem sum_map_range_single (p : Nat) (f : Nat → ZMod p) :
    ∀ (n k : Nat), k < n → (∀ j, j < n → j ≠ k → f j = 0) →
      ((List.range n).map f).sum = f k := by
  intro n
  induction n with
  | zero => intro k hk; exact absurd hk (Nat.not_lt_zero k)
  | succ n ih =>
    intro k hk h0
    rw [List.range_succ, List.map_append, List.sum_append]
    by_cases hkn : k = n
    · subst hkn
      have hz : ((List.range k).map f).sum = 0 := by
        apply List.sum_eq_zero
        intro y hy
        rw [List.mem_map] at hy
        obtain ⟨j, hj, hjy⟩ := hy
        rw [List.mem_range] at hj
        rw [← hjy]
        exact h0 j (by omega) (by omega)
      rw [hz]
      simp
    · have hkn' : k < n := by omega
      rw [ih k hkn' (fun j hj hjk => h0 j (by omega) hjk)]
      have hfn : f n = 0 := h0 n (by omega) (fun hcon => hkn hcon.symm)
      simp [hfn]

theorem pairwise_ne_getD (p : Nat) (xs : List (ZMod p))
    (hdist : xs.Pairwise (fun a b => a ≠ b)) :
    ∀ i j, i < xs.length → j < xs.length → i ≠ j → xs.getD i 0 ≠ xs.getD j 0 := by
  intro i j hi hj hij
  rw [List.getD_eq_getElem xs 0 hi, List.getD_eq_getElem xs 0 hj]
  rcases Nat.lt_or_ge i j with h | h
  · exact (List.pairwise_iff_getElem.mp hdist) i j hi hj h
  · have hji : j < i := by omega
    exact ((List.pairwise_iff_getElem.mp hdist) j i hj hi hji).symm

theorem lagrangeBasis_eval_self (p : Nat) (hp : Nat.Prime p) (xs : List (ZMod p))
    (hdist : xs.Pairwise (fun a b => a ≠ b)) (i : Nat) (hi : i < xs.length) :
    listEvalZ p (lagrangeBasis p xs i) (xs.getD i 0) = 1 := by
  haveI : Fact (Nat.Prime p) := ⟨hp⟩
  unfold lagrangeBasis
  rw [listEvalZ_basisFold]
  apply List.prod_eq_one
  intro y hy
  rw [List.mem_map] at hy
  obtain ⟨j, hj, hjy⟩ := hy
  rw [List.mem_filter, List.mem_range] at hj
  obtain ⟨hjlen, hjne⟩ := hj
  have hne : j ≠ i := by
    intro hcon
    subst hcon
    simp at hjne
  have hxy : xs.getD i 0 - xs.getD j 0 ≠ 0 :=
    sub_ne_zero.mpr (pairwise_ne_getD p xs hdist i j hi hjlen (fun h => hne h.symm))
  rw [← hjy]
  exact inv_mul_cancel₀ hxy

theorem lagrangeBasis_eval_other (p : Nat) (xs : List (ZMod p)) (i k : Nat)
    (hk : k < xs.length) (hki : k ≠ i) :
    listEvalZ p (lagrangeBasis p xs i) (xs.getD k 0) = 0 := by
  unfold lagrangeBasis
  rw [listEvalZ_basisFold]
  apply List.prod_eq_zero
  rw [List.mem_map]
  refine ⟨k, ?_, ?_⟩
  · rw [List.mem_filter, List.mem_range]
    exact ⟨hk, by simp [hki]⟩
  · rw [sub_self, mul_zero]

/-- C7: over a prime modulus, the spec-modelled Lagrange interpolation of
equal-length non-empty sample sequences with pairwise-distinct nodes
evaluates to the prescribed value at every node.  (The two helper functions
of the source are `unimplemented!()`; the construction is modelled from the
spec.) -/
theorem c7_interpolate_evaluates (p : Nat) (hp : Nat.Prime p)
    (xs ys : List (ZMod p)) (hlen : xs.length = ys.length) (hne : xs ≠ [])
    (hdist : xs.Pairwise (fun a b => a ≠ b)) (k : Nat) (hk : k < xs.length) :
    listEvalZ p (specInterpolate p xs ys) (xs.getD k 0) = ys.getD k 0 := by
  unfold specInterpolate
  rw [listEvalZ_interpFold]
  rw [sum_map_range_single p _ xs.length k hk]
  · rw [listEvalZ_scaleZ, lagrangeBasis_eval_self p hp xs hdist k hk, mul_one]
  · intro j hj hjk
    rw [listEvalZ_scaleZ, lagrangeBasis_eval_other p xs j k hk (fun h => hjk h.symm),
      mul_zero]

/-- Witness for C7 over the modulus-5 field: nodes `[1, 2]`, values
`[3, 4]`, checked at the first node. -/
theorem c7_witness :
    Nat.Prime 5 ∧ ([(1 : ZMod 5), 2].length = [(3 : ZMod 5), 4].length) ∧
    ([(1 : ZMod 5), 2].Pairwise (fun a b => a ≠ b)) ∧
    listEvalZ 5 (specInterpolate 5 [(1 : ZMod 5), 2] [(3 : ZMod 5), 4])
      ([(1 : ZMod 5), 2].getD 0 0) = [(3 : ZMod 5), 4].getD 0 0 :=
  ⟨by decide, by decide, by decide,
    c7_interpolate_evaluates 5 (by decide) [(1 : ZMod 5), 2] [(3 : ZMod 5), 4]
      (by decide) (by decide) (by decide) 0 (by decide)⟩
